import Mathlib

/-!
Verification of the Paper-Trader synchronization engine.

Shallow embedding of the two scripts `src/main.py` (row-preserving variant)
and `src/papertrader_updater.py` (timestamp variant).  Prices are modelled
as rationals, the spreadsheet price map as a function `String → Option ℚ`,
and the market-data feed as a function from a batch of symbols to either an
error (a raised exception) or a list of `(symbol, parsed price)` pairs,
where `none` in the second component models a `float(trade.price)` that
raises (missing / unparsable price).
-/

/-- A value written into a sheet cell: a numeric price, the explicit blank
`""` the code writes when a symbol has no price, or plain text (used for
ticker cells and the timestamp column of the updater variant). -/
inductive CellVal where
  | price (p : ℚ)
  | blank
  | text (t : String)
  deriving DecidableEq

/-- One single-cell write, as built by `_write_prices_exact_rows` in
src/main.py: `{"range": f"C{row_idx}", "values": [[v]]}`.  Columns are
numbered as gspread numbers them: A = 1, B = 2, C = 3. -/
structure CellUpdate where
  row : Nat
  col : Nat
  value : CellVal
  deriving DecidableEq

/-- The price map `{ 'AAPL': 172.34, ... }` built by `_fetch_latest_prices`:
a Python dict, modelled as a function with `none` for "key absent". -/
abbrev PriceMap := String → Option ℚ

/-- The empty dict `prices = {}`. -/
def emptyPM : PriceMap := fun _ => none

/-- Dict assignment `prices[sym] = p`. -/
def pmUpdate (m : PriceMap) (s : String) (p : ℚ) : PriceMap :=
  fun t => if t = s then some p else m t

/-- One batch response from the feed: the items of the mapping-like
`result` returned by `client.get_stock_latest_trade`; the `Option ℚ` is
the parsed `trade.price` (`none` when `float(trade.price)` raises). -/
abbrev FeedResult := List (String × Option ℚ)

/-- The market-data collaborator: per batch either a raised exception
(`Except.error`) or a response. -/
abbrev Feed := List String → Except Unit FeedResult

/-- Python's ASCII whitespace, as removed by `str.strip()`. -/
def isSpace (c : Char) : Bool :=
  c = ' ' || c = '\t' || c = '\n' || c = '\r' || c = '\x0b' || c = '\x0c'

/-- `raw.strip()`: remove leading and trailing whitespace. -/
def pyStrip (s : String) : String :=
  ⟨((s.data.dropWhile isSpace).reverse.dropWhile isSpace).reverse⟩

/-- ASCII uppercasing of one character, as `str.upper()` does on the
ASCII range (ticker symbols are ASCII). -/
def upChar (c : Char) : Char :=
  if 'a' ≤ c ∧ c ≤ 'z' then Char.ofNat (c.toNat - 32) else c

/-- `raw.upper()`. -/
def pyUpper (s : String) : String := ⟨s.data.map upChar⟩

/-- `sym.startswith("$")`. -/
def startsDollar (s : String) : Bool :=
  match s.data with
  | '$' :: _ => true
  | _ => false

/-- `sym[1:]`: drop the first character. -/
def dropOne (s : String) : String := ⟨s.data.drop 1⟩

/-- `if sym.startswith("$"): sym = sym[1:]` from `_get_rows_and_symbols`
in src/main.py. -/
def stripDollar (w : String) : String :=
  if startsDollar w then dropOne w else w

/-- The per-cell body of the loop in `_get_rows_and_symbols`
(src/main.py lines 80-85): `sym = (raw or "").strip().upper()`; the row is
kept iff `sym` is non-empty, and the kept symbol additionally has one
leading `$` stripped.  Note the emptiness test happens BEFORE the `$`
strip. -/
def normCell (raw : String) : Option String :=
  if pyUpper (pyStrip raw) = "" then none
  else some (stripDollar (pyUpper (pyStrip raw)))

/-- The `enumerate(col_a[1:], start=2)` loop of `_get_rows_and_symbols`:
walks the cells pairing each with its original row number `i`. -/
def rowsFrom (i : Nat) : List String → List (Nat × String)
  | [] => []
  | raw :: rest =>
    match normCell raw with
    | some sym => (i, sym) :: rowsFrom (i + 1) rest
    | none => rowsFrom (i + 1) rest

/-- `_get_rows_and_symbols(ws)` from src/main.py: reads Column A, skips the
header row, and returns `(row_index, SYMBOL)` pairs with original row
numbers (data starts at row 2). -/
def getRowsAndSymbols (column : List String) : List (Nat × String) :=
  rowsFrom 2 (column.drop 1)

/-- `_get_tickers(ws)` from src/papertrader_updater.py:
`[t.strip().upper() for t in ws.col_values(1)[1:] if t.strip()]` — note it
keeps no row numbers and does not strip a leading `$`. -/
def getTickers (column : List String) : List String :=
  (column.drop 1).filterMap
    (fun t => if pyStrip t = "" then none else some (pyUpper (pyStrip t)))

/-- Fuel-indexed worker for `dedupFirst`; each step removes at least the
head, so `fuel = length` always suffices. -/
def dedupAux : Nat → List String → List String
  | _, [] => []
  | 0, _ :: _ => []
  | fuel + 1, a :: as => a :: dedupAux fuel (as.filter (fun b => b ≠ a))

/-- `list(dict.fromkeys(symbols))` from src/main.py line 122: dedupe
keeping the first occurrence of each symbol, preserving order. -/
def dedupFirst (l : List String) : List String := dedupAux l.length l

/-- Fuel-indexed worker for `chunksPos`; each step removes at least the
head, so `fuel = length` always suffices. -/
def chunksAux : Nat → List String → Nat → List (List String)
  | _, [], _ => []
  | 0, _ :: _, _ => []
  | fuel + 1, a :: as, size => ((a :: as).take size) :: chunksAux fuel (as.drop (size - 1)) size

/-- The slices `seq[i:i+size]` for `i = 0, size, 2*size, ...` produced by
`_chunks(seq, size)` (src/main.py lines 109-111) when `size ≥ 1`.  For a
non-empty list the first slice is `seq.take size` and the rest recurses on
`seq.drop size = as.drop (size - 1)`. -/
def chunksPos (seq : List String) (size : Nat) : List (List String) :=
  chunksAux seq.length seq size

/-- Full semantics of iterating `_chunks(seq, size)` for an arbitrary
integer `size`, following Python's `range(0, len(seq), size)`:
`size = 0` raises `ValueError: range() arg 3 must not be zero`;
a negative `size` makes the range empty (no batches, no error);
a positive `size` yields the successive slices. -/
def pyChunks (seq : List String) (size : Int) : Except String (List (List String)) :=
  if size = 0 then .error "range() arg 3 must not be zero"
  else if size < 0 then .ok []
  else .ok (chunksPos seq size.toNat)

/-- `for sym, trade in (result or {}).items(): try: prices[sym] = float(trade.price)
except: pass` — fold one batch response into the dict, skipping entries
whose price failed to parse. -/
def insertResults (pm : PriceMap) (res : FeedResult) : PriceMap :=
  res.foldl
    (fun m st =>
      match st.2 with
      | some p => pmUpdate m st.1 p
      | none => m)
    pm

/-- The batch loop of `_fetch_latest_prices` (src/main.py lines 124-138):
for each batch, a raised request (`Except.error`) is caught and skipped
(`continue`), a successful response is folded into the dict. -/
def fetchLoop (feed : Feed) (pm : PriceMap) (batches : List (List String)) : PriceMap :=
  batches.foldl
    (fun m b =>
      match feed b with
      | .error _ => m
      | .ok res => insertResults m res)
    pm

/-- `_fetch_latest_prices(symbols, client)` from src/main.py: empty input
short-circuits to the empty dict; otherwise the symbols are deduplicated
(first occurrence order) and chunked with `CHUNK_SIZE = size`; a
`ValueError` from `_chunks` propagates (`Except.error`). -/
def fetchLatestPrices (symbols : List String) (feed : Feed) (size : Int) :
    Except String PriceMap :=
  if symbols = [] then .ok emptyPM
  else
    match pyChunks (dedupFirst symbols) size with
    | .error e => .error e
    | .ok bs => .ok (fetchLoop feed emptyPM bs)

/-- `price if price is not None else ""` — the written cell value. -/
def priceCell : Option ℚ → CellVal
  | some p => .price p
  | none => .blank

/-- The `updates` list built by `_write_prices_exact_rows` (src/main.py
lines 96-102): one Column-C cell write per `(row_idx, sym)` pair, at
exactly `row_idx`, value the looked-up price or the explicit blank. -/
def writeUpdates (rows : List (Nat × String)) (pm : PriceMap) : List CellUpdate :=
  rows.map (fun rs => { row := rs.1, col := 3, value := priceCell (pm rs.2) })

/-- The `ws.batch_update` calls issued by `_write_prices_exact_rows`:
none when `rows_with_symbols` is empty (early return) or when `updates`
is empty, otherwise exactly one batched call. -/
def writePricesCalls (rows : List (Nat × String)) (pm : PriceMap) :
    List (List CellUpdate) :=
  if rows = [] then []
  else if writeUpdates rows pm = [] then []
  else [writeUpdates rows pm]

/-- One `ws.update(f"{COL}2:{COL}{n+1}", values)` range write of the
updater variant: a contiguous vertical run in column `col` starting at
`startRow`. -/
structure ColWrite where
  col : Nat
  startRow : Nat
  values : List CellVal
  deriving DecidableEq

/-- `_write_prices(ws, symbols, price_map)` from src/papertrader_updater.py:
no call when `symbols` is empty; otherwise one timestamp write covering
`B2:B{len+1}` and one price write covering `C2:C{len+1}`, enumerating the
(compacted) symbol list from row 2. -/
def writePricesUpdater (symbols : List String) (pm : PriceMap) (ts : String) :
    List ColWrite :=
  if symbols = [] then []
  else
    [ { col := 2, startRow := 2, values := symbols.map (fun _ => CellVal.text ts) },
      { col := 3, startRow := 2, values := symbols.map (fun s => priceCell (pm s)) } ]

/-- The set of `(row, col)` cells a range write touches. -/
def colWriteCells (w : ColWrite) : List (Nat × Nat) :=
  (List.range w.values.length).map (fun i => (w.startRow + i, w.col))

/-- One cycle of the src/main.py loop (lines 153-162): extract rows, stop
with no updates if there are no symbols, otherwise fetch prices (an
escaping `ValueError` aborts the cycle: `Except.error`) and build the
Column-C updates. -/
def cycleUpdates (column : List String) (feed : Feed) (size : Int) :
    Except String (List CellUpdate) :=
  let rows := getRowsAndSymbols column
  if rows.map (fun rs => rs.2) = [] then .ok []
  else
    match fetchLatestPrices (rows.map (fun rs => rs.2)) feed size with
    | .error e => .error e
    | .ok pm => .ok (writeUpdates rows pm)

/-- A sheet: contents of cell `(row, col)`. -/
abbrev Sheet := Nat × Nat → CellVal

/-- A sheet whose Column A holds the given column of text, all other
cells blank. -/
def mkSheet (column : List String) : Sheet :=
  fun rc => if rc.2 = 1 then .text (column.getD (rc.1 - 1) "") else .blank

/-- Apply a list of single-cell updates to a sheet. -/
def applyUpdates (s : Sheet) (us : List CellUpdate) : Sheet :=
  us.foldl (fun t u => fun rc => if rc = (u.row, u.col) then u.value else t rc) s

/-- The text a read of a cell yields. -/
def cellText : CellVal → String
  | .text t => t
  | _ => ""

/-- Read the first `n` cells of Column A, as `ws.col_values(1)` does. -/
def readColOne (s : Sheet) (n : Nat) : List String :=
  (List.range n).map (fun i => cellText (s (i + 1, 1)))

/-! Concrete fixtures used by witnesses and counterexamples. -/

/-- The spec's concrete scenario column, rows 1-5. -/
def exampleColumn : List String := ["SYMBOL", "AAPL", "", "aapl", "$SPY"]

/-- A column with a blank row 3: ticker `A` at row 2, `B` at row 4. -/
def gapColumn : List String := ["Ticker", "A", "", "B"]

/-- A price map giving `A ↦ 1` and `B ↦ 2`. -/
def pmAB : PriceMap :=
  fun s => if s = "A" then some 1 else if s = "B" then some 2 else none

/-- A feed that answers every batch with a price for the unrequested
symbol `ROGUE`. -/
def feedRogue : Feed := fun _ => .ok [("ROGUE", some 1)]

/-- A feed that fails on the batch `["A"]` and answers `["B"]` with a
price for `B`. -/
def feedC3 : Feed :=
  fun b => if b = ["A"] then .error () else .ok [("B", some 2)]

/-- A feed that answers every batch with `AAPL ↦ 172.34` only. -/
def feedAAPL : Feed := fun _ => .ok [("AAPL", some (17234 / 100 : ℚ))]

/-- A feed that echoes every requested symbol back with price 1. -/
def feedEcho : Feed := fun b => .ok (b.map (fun s => (s, some 1)))

/-- The updates one cycle on `exampleColumn` with `feedAAPL` produces. -/
def usEx : List CellUpdate :=
  [ { row := 2, col := 3, value := .price (17234 / 100 : ℚ) },
    { row := 4, col := 3, value := .price (17234 / 100 : ℚ) },
    { row := 5, col := 3, value := .blank } ]

/-! Helper lemmas about extraction. -/

/-- Every pair produced by `rowsFrom i` has row index at least `i`. -/
theorem rowsFrom_ge (l : List String) : ∀ (i : Nat) (p : Nat × String), p ∈ rowsFrom i l → i ≤ p.1 := by
  induction l with
  | nil => intro i p hp; simp [rowsFrom] at hp
  | cons raw rest ih =>
    intro i p hp
    unfold rowsFrom at hp
    cases h : normCell raw with
    | some sym =>
      rw [h] at hp
      rcases List.mem_cons.1 hp with rfl | hp
      · exact le_rfl
      · exact Nat.le_of_succ_le (ih (i + 1) p hp)
    | none =>
      rw [h] at hp
      exact Nat.le_of_succ_le (ih (i + 1) p hp)

/-- The row indices produced by `rowsFrom i` are strictly increasing. -/
theorem rowsFrom_sorted (l : List String) : ∀ i : Nat, List.Pairwise (· < ·) ((rowsFrom i l).map Prod.fst) := by
  induction l with
  | nil => intro i; simp [rowsFrom]
  | cons raw rest ih =>
    intro i
    unfold rowsFrom
    cases h : normCell raw with
    | some sym =>
      simp only [List.map_cons]
      refine List.Pairwise.cons ?_ (ih (i + 1))
      intro r hr
      rcases List.mem_map.1 hr with ⟨p, hp, rfl⟩
      exact Nat.lt_of_succ_le (rowsFrom_ge rest (i + 1) p hp)
    | none => exact ih (i + 1)

/-- Every produced pair comes from some source cell via `normCell`. -/
theorem rowsFrom_src (l : List String) : ∀ (i : Nat) (p : Nat × String), p ∈ rowsFrom i l →
    ∃ raw, raw ∈ l ∧ normCell raw = some p.2 := by
  induction l with
  | nil => intro i p hp; simp [rowsFrom] at hp
  | cons raw rest ih =>
    intro i p hp
    unfold rowsFrom at hp
    cases h : normCell raw with
    | some sym =>
      rw [h] at hp
      rcases List.mem_cons.1 hp with rfl | hp
      · exact ⟨raw, List.mem_cons_self _ _, h⟩
      · rcases ih (i + 1) p hp with ⟨raw', hm, hn⟩
        exact ⟨raw', List.mem_cons_of_mem _ hm, hn⟩
    | none =>
      rw [h] at hp
      rcases ih (i + 1) p hp with ⟨raw', hm, hn⟩
      exact ⟨raw', List.mem_cons_of_mem _ hm, hn⟩

/-- Inversion of `normCell`: a kept symbol is the `$`-stripped form of a
non-empty trimmed uppercased cell. -/
theorem normCell_inv (raw s : String) (h : normCell raw = some s) :
    pyUpper (pyStrip raw) ≠ "" ∧ s = stripDollar (pyUpper (pyStrip raw)) := by
  unfold normCell at h
  split at h
  · cases h
  · exact ⟨by assumption, (Option.some.inj h).symm⟩

/-! C1.  Row fidelity.  The row-preserving variant (src/main.py) writes
every price at exactly the extracted row of the price column; the updater
variant (src/papertrader_updater.py) instead renumbers from row 2,
contradicting both the claim and its own docstring. -/

/-- C1: in src/main.py each `(row, symbol)` pair yields its Column-C update
at exactly that row; concretely, on a column with ticker `A` at row 2, row
3 blank, and ticker `B` at row 4, src/papertrader_updater.py touches price
cells C2 and C3 only — `B`'s price lands at row 3, not at its source row 4. -/
theorem claim_C1_row_fidelity :
    (∀ (rows : List (Nat × String)) (pm : PriceMap),
      (writeUpdates rows pm).map (fun u => u.row) = rows.map (fun rs => rs.1) ∧
      (writeUpdates rows pm).map (fun u => u.col) = rows.map (fun _ => 3)) ∧
    getTickers gapColumn = ["A", "B"] ∧
    getRowsAndSymbols gapColumn = [(2, "A"), (4, "B")] ∧
    (writePricesUpdater (getTickers gapColumn) pmAB "t").map colWriteCells =
      [[(2, 2), (3, 2)], [(2, 3), (3, 3)]] := by
  refine ⟨?_, by decide, by decide, by decide⟩
  intro rows pm
  constructor
  · simp only [writeUpdates, List.map_map]
    rfl
  · simp only [writeUpdates, List.map_map]
    rfl

/-! C4.  Extraction. -/

/-- C4 counterexample: a cell containing exactly `"$"` is non-empty before
the `$` strip, so the code keeps the row with an empty symbol instead of
discarding it. -/
theorem claim_C4_cex : getRowsAndSymbols ["h", "$"] = [(2, "")] := by decide

/-- C4 (amended): the concrete scenario holds; row 1 is discarded whatever
its content; and every produced symbol is the `$`-stripped form of the
trimmed uppercased cell text, that form being non-empty before the strip
(emptiness is tested before the `$` strip, so a cell trimming to `"$"`
yields an empty symbol). -/
theorem claim_C4_extraction_amended :
    getRowsAndSymbols exampleColumn = [(2, "AAPL"), (4, "AAPL"), (5, "SPY")] ∧
    (∀ (h₁ h₂ : String) (rest : List String),
      getRowsAndSymbols (h₁ :: rest) = getRowsAndSymbols (h₂ :: rest)) ∧
    (∀ (column : List String) (p : Nat × String), p ∈ getRowsAndSymbols column →
      ∃ raw, raw ∈ column.drop 1 ∧ pyUpper (pyStrip raw) ≠ "" ∧
        p.2 = stripDollar (pyUpper (pyStrip raw))) := by
  refine ⟨by decide, ?_, ?_⟩
  · intro h₁ h₂ rest; rfl
  · intro column p hp
    rcases rowsFrom_src _ 2 p hp with ⟨raw, hraw, hnc⟩
    rcases normCell_inv raw p.2 hnc with ⟨hne, hs⟩
    exact ⟨raw, hraw, hne, hs⟩

/-- C4 witness: the amended theorem applied to the spec's concrete column
at the produced pair `(2, "AAPL")`. -/
theorem claim_C4_witness :
    ∃ raw, raw ∈ exampleColumn.drop 1 ∧ pyUpper (pyStrip raw) ≠ "" ∧
      ((2, "AAPL") : Nat × String).2 = stripDollar (pyUpper (pyStrip raw)) :=
  claim_C4_extraction_amended.2.2 exampleColumn (2, "AAPL") (by decide)

/-! C5.  Update construction. -/

/-- C5: one update per extracted pair; a pair whose symbol has a price gets
that price, otherwise the explicit blank; two pairs sharing a symbol whose
price succeeded both get the same price value. -/
theorem claim_C5_update_construction : ∀ (rows : List (Nat × String)) (pm : PriceMap),
    (writeUpdates rows pm).length = rows.length ∧
    (∀ (r : Nat) (s : String), (r, s) ∈ rows →
      ({ row := r, col := 3, value := priceCell (pm s) } : CellUpdate) ∈ writeUpdates rows pm) ∧
    (∀ (r₁ r₂ : Nat) (s : String) (p : ℚ), (r₁, s) ∈ rows → (r₂, s) ∈ rows → pm s = some p →
      ({ row := r₁, col := 3, value := CellVal.price p } : CellUpdate) ∈ writeUpdates rows pm ∧
      ({ row := r₂, col := 3, value := CellVal.price p } : CellUpdate) ∈ writeUpdates rows pm) := by
  intro rows pm
  refine ⟨by simp [writeUpdates], ?_, ?_⟩
  · intro r s h
    exact List.mem_map.2 ⟨(r, s), h, rfl⟩
  · intro r₁ r₂ s p h₁ h₂ hp
    have hv : priceCell (pm s) = CellVal.price p := by rw [hp]; rfl
    exact ⟨List.mem_map.2 ⟨(r₁, s), h₁, by rw [hv]⟩,
           List.mem_map.2 ⟨(r₂, s), h₂, by rw [hv]⟩⟩

/-- C5 witness: rows 2 and 5 both hold symbol `A` with price 1. -/
theorem claim_C5_witness :
    ({ row := 2, col := 3, value := CellVal.price 1 } : CellUpdate)
        ∈ writeUpdates [(2, "A"), (5, "A")] pmAB ∧
    ({ row := 5, col := 3, value := CellVal.price 1 } : CellUpdate)
        ∈ writeUpdates [(2, "A"), (5, "A")] pmAB :=
  (claim_C5_update_construction [(2, "A"), (5, "A")] pmAB).2.2 2 5 "A" 1
    (by decide) (by decide) (by decide)

/-! C6.  Chunk size validation. -/

/-- C6 counterexample: a negative chunk size does not fail — Python's
`range(0, n, size)` is simply empty, so no batches are produced and the
fetch succeeds returning the empty price map. -/
theorem claim_C6_cex :
    pyChunks ["AAPL"] (-1) = .ok [] ∧
    fetchLatestPrices ["AAPL"] (fun _ => .error ()) (-1) = .ok emptyPM :=
  ⟨rfl, rfl⟩

/-- C6 (amended): batch planning raises `ValueError` (fatal to the cycle)
exactly when the chunk size is zero; a negative chunk size instead yields
no batches at all, silently fetching nothing. -/
theorem claim_C6_chunk_amended : ∀ (symbols : List String) (feed : Feed) (size : Int),
    (size = 0 → pyChunks symbols size = .error "range() arg 3 must not be zero") ∧
    (size < 0 → pyChunks symbols size = .ok []) ∧
    (symbols ≠ [] → fetchLatestPrices symbols feed 0 = .error "range() arg 3 must not be zero") := by
  intro symbols feed size
  refine ⟨?_, ?_, ?_⟩
  · rintro rfl; rfl
  · intro h
    unfold pyChunks
    rw [if_neg (by omega), if_pos h]
  · intro h
    unfold fetchLatestPrices
    rw [if_neg h]
    rfl

/-- C6 witness: the amended theorem applied at chunk sizes 0 and -1 for a
one-symbol list. -/
theorem claim_C6_witness :
    pyChunks ["AAPL"] 0 = .error "range() arg 3 must not be zero" ∧
    pyChunks ["AAPL"] (-1) = .ok [] ∧
    fetchLatestPrices ["AAPL"] feedRogue 0 = .error "range() arg 3 must not be zero" :=
  ⟨(claim_C6_chunk_amended ["AAPL"] feedRogue 0).1 rfl,
   (claim_C6_chunk_amended ["AAPL"] feedRogue (-1)).2.1 (by decide),
   (claim_C6_chunk_amended ["AAPL"] feedRogue 0).2.2 (by decide)⟩

/-! C7.  Write framing. -/

/-- C7: src/main.py issues no write call for an empty row list and every
written cell is in Column C; src/papertrader_updater.py issues no call for
an empty symbol list and writes only Columns B (timestamp) and C (price). -/
theorem claim_C7_write_framing :
    (∀ (rows : List (Nat × String)) (pm : PriceMap),
      (rows = [] → writePricesCalls rows pm = []) ∧
      ∀ us, us ∈ writePricesCalls rows pm → ∀ u, u ∈ us → u.col = 3) ∧
    (∀ (symbols : List String) (pm : PriceMap) (ts : String),
      (symbols = [] → writePricesUpdater symbols pm ts = []) ∧
      ∀ w, w ∈ writePricesUpdater symbols pm ts → w.col = 2 ∨ w.col = 3) := by
  constructor
  · intro rows pm
    constructor
    · rintro rfl; rfl
    · intro us hus u hu
      unfold writePricesCalls at hus
      split at hus
      · simp at hus
      · split at hus
        · simp at hus
        · rcases List.mem_singleton.1 hus with rfl
          rcases List.mem_map.1 hu with ⟨rs, _, rfl⟩
          rfl
  · intro symbols pm ts
    constructor
    · rintro rfl; rfl
    · intro w hw
      unfold writePricesUpdater at hw
      split at hw
      · simp at hw
      · rcases List.mem_cons.1 hw with rfl | hw
        · exact Or.inl rfl
        · rcases List.mem_singleton.1 hw with rfl
          exact Or.inr rfl

/-- C7 witness: the framing theorem applied to concrete inputs on both
variants, empty and non-empty. -/
theorem claim_C7_witness :
    writePricesCalls ([] : List (Nat × String)) pmAB = [] ∧
    ({ row := 2, col := 3, value := CellVal.price 1 } : CellUpdate).col = 3 ∧
    writePricesUpdater ([] : List String) pmAB "t" = [] ∧
    (({ col := 3, startRow := 2, values := [CellVal.price 1] } : ColWrite).col = 2 ∨
     ({ col := 3, startRow := 2, values := [CellVal.price 1] } : ColWrite).col = 3) :=
  ⟨(claim_C7_write_framing.1 [] pmAB).1 rfl,
   (claim_C7_write_framing.1 [(2, "A")] pmAB).2
     [{ row := 2, col := 3, value := CellVal.price 1 }] (by decide)
     { row := 2, col := 3, value := CellVal.price 1 } (by decide),
   (claim_C7_write_framing.2 [] pmAB "t").1 rfl,
   (claim_C7_write_framing.2 ["A"] pmAB "t").2
     { col := 3, startRow := 2, values := [CellVal.price 1] } (by decide)⟩

/-! C10.  Strictly increasing row indices. -/

/-- C10: extracted row indices are strictly increasing (hence no source row
contributes twice) and all at least 2. -/
theorem claim_C10_strict_rows : ∀ column : List String,
    List.Pairwise (· < ·) ((getRowsAndSymbols column).map Prod.fst) ∧
    ∀ p, p ∈ getRowsAndSymbols column → 2 ≤ p.1 := by
  intro column
  exact ⟨rowsFrom_sorted _ 2, fun p hp => rowsFrom_ge _ 2 p hp⟩

/-- C10 witness: the theorem applied to the spec's concrete column at the
produced pair `(2, "AAPL")`. -/
theorem claim_C10_witness : 2 ≤ ((2, "AAPL") : Nat × String).1 :=
  (claim_C10_strict_rows exampleColumn).2 (2, "AAPL") (by decide)

/-! Helper lemmas about deduplication and chunking. -/

/-- `dedupAux` preserves membership (given enough fuel). -/
theorem dedupAux_mem : ∀ (fuel : Nat) (l : List String), l.length ≤ fuel →
    ∀ s, s ∈ dedupAux fuel l ↔ s ∈ l := by
  intro fuel
  induction fuel with
  | zero =>
    intro l h s
    cases l with
    | nil => simp [dedupAux]
    | cons a as => simp at h
  | succ n ih =>
    intro l h s
    cases l with
    | nil => simp [dedupAux]
    | cons a as =>
      have has : as.length ≤ n := Nat.le_of_succ_le_succ h
      have hflen : (as.filter (fun b => b ≠ a)).length ≤ n :=
        le_trans (List.length_filter_le _ _) has
      simp only [dedupAux, List.mem_cons]
      constructor
      · rintro (rfl | hs)
        · exact Or.inl rfl
        · exact Or.inr (List.mem_filter.1 ((ih _ hflen s).1 hs)).1
      · rintro (rfl | hs)
        · exact Or.inl rfl
        · by_cases hsa : s = a
          · exact Or.inl hsa
          · exact Or.inr ((ih _ hflen s).2 (List.mem_filter.2 ⟨hs, by simp [hsa]⟩))

/-- `dedupAux` produces no duplicates (given enough fuel). -/
theorem dedupAux_nodup : ∀ (fuel : Nat) (l : List String), l.length ≤ fuel →
    (dedupAux fuel l).Nodup := by
  intro fuel
  induction fuel with
  | zero =>
    intro l h
    cases l with
    | nil => simp [dedupAux]
    | cons a as => simp at h
  | succ n ih =>
    intro l h
    cases l with
    | nil => simp [dedupAux]
    | cons a as =>
      have has : as.length ≤ n := Nat.le_of_succ_le_succ h
      have hflen : (as.filter (fun b => b ≠ a)).length ≤ n :=
        le_trans (List.length_filter_le _ _) has
      refine List.nodup_cons.2 ⟨?_, ih _ hflen⟩
      intro hmem
      have := (List.mem_filter.1 ((dedupAux_mem _ _ hflen a).1 hmem)).2
      simp at this

/-- `dict.fromkeys` keeps exactly the symbols of its input. -/
theorem dedupFirst_mem (l : List String) (s : String) : s ∈ dedupFirst l ↔ s ∈ l :=
  dedupAux_mem l.length l le_rfl s

/-- `dict.fromkeys` has no duplicate keys. -/
theorem dedupFirst_nodup (l : List String) : (dedupFirst l).Nodup :=
  dedupAux_nodup l.length l le_rfl

/-- Concatenating the chunks gives back the input (given enough fuel and a
positive size). -/
theorem chunksAux_join : ∀ (fuel : Nat) (seq : List String) (size : Nat),
    seq.length ≤ fuel → 1 ≤ size → (chunksAux fuel seq size).flatten = seq := by
  intro fuel
  induction fuel with
  | zero =>
    intro seq size h hs
    cases seq with
    | nil => rfl
    | cons a as => simp at h
  | succ n ih =>
    intro seq size h hs
    cases seq with
    | nil => rfl
    | cons a as =>
      cases size with
      | zero => exact absurd hs (by omega)
      | succ k =>
        have hlen : (as.drop (k + 1 - 1)).length ≤ n := by
          rw [List.length_drop]
          have := Nat.le_of_succ_le_succ h
          omega
        simp only [chunksAux, List.flatten_cons]
        rw [ih (as.drop (k + 1 - 1)) (k + 1) hlen hs]
        simp only [Nat.succ_sub_one, List.take_succ_cons]
        rw [List.cons_append, List.take_append_drop]

/-- The chunks of `seq` concatenate back to `seq` when the size is positive. -/
theorem chunksPos_join (seq : List String) (size : Nat) (hs : 1 ≤ size) :
    (chunksPos seq size).flatten = seq :=
  chunksAux_join seq.length seq size le_rfl hs

/-- A list of lists with duplicate-free concatenation is pairwise disjoint. -/
theorem join_nodup_pairwise : ∀ bs : List (List String), bs.flatten.Nodup →
    List.Pairwise (fun b c => ∀ s, s ∈ b → s ∉ c) bs := by
  intro bs
  induction bs with
  | nil => intro _; exact List.Pairwise.nil
  | cons b rest ih =>
    intro h
    rw [List.flatten_cons, List.nodup_append] at h
    obtain ⟨hb, hrest, hdisj⟩ := h
    refine List.Pairwise.cons ?_ (ih hrest)
    intro c hc s hs hsc
    exact hdisj hs (List.mem_flatten.2 ⟨c, hc, hsc⟩)

/-- Whatever `pyChunks` successfully returns concatenates to its input
(or is the empty batch list, for a negative size). -/
theorem pyChunks_ok_join (seq : List String) (size : Int) (bs : List (List String))
    (h : pyChunks seq size = .ok bs) : bs.flatten = seq ∨ bs = [] := by
  unfold pyChunks at h
  split at h
  · exact absurd h (by simp)
  · split at h
    · injection h with h'
      exact Or.inr h'.symm
    · injection h with h'
      left
      rw [← h']
      exact chunksPos_join seq size.toNat (by omega)

/-! C2.  Batch completeness. -/

/-- C2: for a positive chunk size the planner succeeds and its batches
concatenate to exactly the first-occurrence deduplication of the symbols
(no omission), are pairwise disjoint (no symbol in two batches), and that
deduplication has exactly the symbols of the input. -/
theorem claim_C2_batch_partition : ∀ (symbols : List String) (size : Int), 0 < size →
    ∃ bs, pyChunks (dedupFirst symbols) size = .ok bs ∧
      bs.flatten = dedupFirst symbols ∧
      List.Pairwise (fun b c => ∀ s, s ∈ b → s ∉ c) bs ∧
      (∀ s, s ∈ dedupFirst symbols ↔ s ∈ symbols) := by
  intro symbols size hpos
  refine ⟨chunksPos (dedupFirst symbols) size.toNat, ?_, ?_, ?_,
    fun s => dedupFirst_mem symbols s⟩
  · unfold pyChunks
    rw [if_neg (by omega), if_neg (by omega)]
  · exact chunksPos_join _ _ (by omega)
  · have hj := chunksPos_join (dedupFirst symbols) size.toNat (by omega)
    apply join_nodup_pairwise
    rw [hj]
    exact dedupFirst_nodup symbols

/-- C2 witness: the partition theorem applied to a duplicated symbol list
with chunk size 2. -/
theorem claim_C2_witness :
    ∃ bs, pyChunks (dedupFirst ["AAPL", "SPY", "AAPL"]) 2 = .ok bs ∧
      bs.flatten = dedupFirst ["AAPL", "SPY", "AAPL"] ∧
      List.Pairwise (fun b c => ∀ s, s ∈ b → s ∉ c) bs ∧
      (∀ s, s ∈ dedupFirst ["AAPL", "SPY", "AAPL"] ↔ s ∈ ["AAPL", "SPY", "AAPL"]) :=
  claim_C2_batch_partition ["AAPL", "SPY", "AAPL"] 2 (by decide)

/-! Helper lemmas about the price-map accumulation. -/

/-- A symbol never mentioned in a response is untouched by folding that
response into the dict. -/
theorem insertResults_not_mem : ∀ (res : FeedResult) (pm : PriceMap) (s : String),
    (∀ q, (s, q) ∉ res) → insertResults pm res s = pm s := by
  intro res
  induction res with
  | nil => intro pm s _; rfl
  | cons tq rest ih =>
    intro pm s h
    obtain ⟨t, q⟩ := tq
    cases q with
    | some p =>
      have hstep : insertResults pm ((t, some p) :: rest) =
          insertResults (pmUpdate pm t p) rest := rfl
      rw [hstep, ih _ s (fun q' hq' => h q' (List.mem_cons_of_mem _ hq'))]
      show pmUpdate pm t p s = pm s
      unfold pmUpdate
      rw [if_neg]
      intro hst
      subst hst
      exact h (some p) (List.mem_cons_self _ _)
    | none =>
      have hstep : insertResults pm ((t, none) :: rest) = insertResults pm rest := rfl
      rw [hstep]
      exact ih _ s (fun q' hq' => h q' (List.mem_cons_of_mem _ hq'))

/-- If a response (with dict-unique keys) contains a parsed price for `s`,
folding it in sets `s` to that price. -/
theorem insertResults_get : ∀ (res : FeedResult) (pm : PriceMap) (s : String) (p : ℚ),
    (res.map Prod.fst).Nodup → (s, some p) ∈ res → insertResults pm res s = some p := by
  intro res
  induction res with
  | nil => intro pm s p _ hm; simp at hm
  | cons tq rest ih =>
    intro pm s p hnd hm
    obtain ⟨t, q⟩ := tq
    rw [List.map_cons, List.nodup_cons] at hnd
    obtain ⟨ht, hndr⟩ := hnd
    rcases List.mem_cons.1 hm with heq | hm
    · injection heq with h1 h2
      subst h1
      rw [← h2]
      show insertResults (pmUpdate pm s p) rest s = some p
      rw [insertResults_not_mem rest _ s ?_]
      · show pmUpdate pm s p s = some p
        unfold pmUpdate
        rw [if_pos rfl]
      · intro q' hq'
        exact ht (List.mem_map.2 ⟨(s, q'), hq', rfl⟩)
    · exact ih _ s p hndr hm

/-- A symbol mentioned in no successful response is absent from the final
dict (frame property of the batch loop). -/
theorem fetchLoop_not_mem : ∀ (batches : List (List String)) (feed : Feed) (pm : PriceMap)
    (s : String),
    (∀ b, b ∈ batches → ∀ res, feed b = .ok res → ∀ q, (s, q) ∉ res) →
    fetchLoop feed pm batches s = pm s := by
  intro batches
  induction batches with
  | nil => intro feed pm s _; rfl
  | cons b rest ih =>
    intro feed pm s h
    have hrest := fun b' hb' => h b' (List.mem_cons_of_mem _ hb')
    cases hb : feed b with
    | error e =>
      have hstep : fetchLoop feed pm (b :: rest) = fetchLoop feed pm rest := by
        simp only [fetchLoop, List.foldl_cons, hb]
      rw [hstep]
      exact ih feed pm s hrest
    | ok res =>
      have hstep : fetchLoop feed pm (b :: rest) =
          fetchLoop feed (insertResults pm res) rest := by
        simp only [fetchLoop, List.foldl_cons, hb]
      rw [hstep, ih feed _ s hrest]
      exact insertResults_not_mem res pm s (h b (List.mem_cons_self _ _) res hb)

/-- If the batches are pairwise disjoint, responses only mention requested
symbols, and some successful batch's response carries a parsed price for
`s`, then the final dict maps `s` to that price — independently of any
other batch failing. -/
theorem fetchLoop_get : ∀ (batches : List (List String)) (feed : Feed),
    List.Pairwise (fun b c => ∀ s, s ∈ b → s ∉ c) batches →
    (∀ b, b ∈ batches → ∀ res, feed b = .ok res → ∀ t q, (t, q) ∈ res → t ∈ b) →
    ∀ g, g ∈ batches → ∀ res, feed g = .ok res → (res.map Prod.fst).Nodup →
    ∀ (s : String) (p : ℚ), (s, some p) ∈ res →
    ∀ pm, fetchLoop feed pm batches s = some p := by
  intro batches
  induction batches with
  | nil => intro feed _ _ g hg; simp at hg
  | cons b rest ih =>
    intro feed hdisj hcont g hg res hres hnd s p hm pm
    rw [List.pairwise_cons] at hdisj
    obtain ⟨hd1, hd2⟩ := hdisj
    have hcrest := fun b' hb' => hcont b' (List.mem_cons_of_mem _ hb')
    rcases List.mem_cons.1 hg with rfl | hg
    · have hstep : fetchLoop feed pm (g :: rest) =
          fetchLoop feed (insertResults pm res) rest := by
        simp only [fetchLoop, List.foldl_cons, hres]
      rw [hstep]
      have hsg : s ∈ g := hcont g (List.mem_cons_self _ _) res hres s (some p) hm
      rw [fetchLoop_not_mem rest feed _ s ?_]
      · exact insertResults_get res pm s p hnd hm
      · intro b' hb' res' hres' q hq
        exact hd1 b' hb' s hsg (hcrest b' hb' res' hres' s q hq)
    · cases hb : feed b with
      | error e =>
        have hstep : fetchLoop feed pm (b :: rest) = fetchLoop feed pm rest := by
          simp only [fetchLoop, List.foldl_cons, hb]
        rw [hstep]
        exact ih feed hd2 hcrest g hg res hres hnd s p hm pm
      | ok res0 =>
        have hstep : fetchLoop feed pm (b :: rest) =
            fetchLoop feed (insertResults pm res0) rest := by
          simp only [fetchLoop, List.foldl_cons, hb]
        rw [hstep]
        exact ih feed hd2 hcrest g hg res hres hnd s p hm _

/-! C3.  Partial failure isolation. -/

/-- C3: with pairwise-disjoint batches and a feed that (per the PriceFeed
interface) only mentions requested symbols, a batch whose request raises
leaves all its symbols absent from the final price map, while every
symbol that any successful batch's response priced still gets exactly its
returned price — the loop continues past the failure. -/
theorem claim_C3_batch_isolation (feed : Feed) (batches : List (List String))
    (hdisj : List.Pairwise (fun b c => ∀ s, s ∈ b → s ∉ c) batches)
    (hcont : ∀ b, b ∈ batches → ∀ res, feed b = .ok res → ∀ t q, (t, q) ∈ res → t ∈ b)
    (bad : List String) (hbad : bad ∈ batches) (hfail : feed bad = .error ()) :
    (∀ s, s ∈ bad → fetchLoop feed emptyPM batches s = none) ∧
    (∀ g, g ∈ batches → ∀ res, feed g = .ok res → (res.map Prod.fst).Nodup →
      ∀ (s : String) (p : ℚ), (s, some p) ∈ res →
      fetchLoop feed emptyPM batches s = some p) := by
  constructor
  · intro s hs
    rw [fetchLoop_not_mem batches feed emptyPM s ?_]
    · rfl
    · intro b hb res hres q hq
      have hsb : s ∈ b := hcont b hb res hres s q hq
      have hneq : b ≠ bad := by
        intro hbb
        rw [hbb, hfail] at hres
        cases hres
      have hsym : Symmetric (fun b c : List String => ∀ s, s ∈ b → s ∉ c) := by
        intro x y hxy s' hsy hsx
        exact hxy s' hsx hsy
      exact List.Pairwise.forall hsym hdisj hb hbad hneq s hsb hs
  · intro g hg res hres hnd s p hm
    exact fetchLoop_get batches feed hdisj hcont g hg res hres hnd s p hm emptyPM

/-- C3 witness: two singleton batches, the first failing; `A` ends with no
price and `B` keeps its returned price 2. -/
theorem claim_C3_witness :
    fetchLoop feedC3 emptyPM [["A"], ["B"]] "A" = none ∧
    fetchLoop feedC3 emptyPM [["A"], ["B"]] "B" = some 2 := by
  have hcont : ∀ b, b ∈ [["A"], ["B"]] → ∀ res, feedC3 b = .ok res →
      ∀ t q, (t, q) ∈ res → t ∈ b := by
    intro b hb res hres t q htq
    rcases List.mem_cons.1 hb with rfl | hb
    · exact absurd hres (by simp [feedC3])
    · rcases List.mem_singleton.1 hb with rfl
      have : res = [("B", some 2)] := by
        have hfeed : feedC3 ["B"] = .ok [("B", some 2)] := rfl
        rw [hfeed] at hres
        exact (Except.ok.inj hres).symm
      subst this
      rcases List.mem_singleton.1 htq with h
      injection h with h1 h2
      subst h1
      exact List.mem_singleton.2 rfl
  have h := claim_C3_batch_isolation feedC3 [["A"], ["B"]] (by decide) hcont
    ["A"] (by decide) rfl
  exact ⟨h.1 "A" (by decide),
         h.2 ["B"] (by decide) [("B", some 2)] rfl (by decide) "B" 2 (by decide)⟩

/-! C9.  PriceMap key containment. -/

/-- C9 counterexample: a feed response mentioning the unrequested symbol
`ROGUE` puts `ROGUE` into the price map even though it was never
extracted — the code copies response keys unfiltered. -/
theorem claim_C9_cex :
    fetchLatestPrices ["AAPL"] feedRogue 150 = .ok (fetchLoop feedRogue emptyPM [["AAPL"]]) ∧
    fetchLoop feedRogue emptyPM [["AAPL"]] "ROGUE" = some 1 ∧
    ¬ ("ROGUE" ∈ ["AAPL"]) :=
  ⟨rfl, rfl, by decide⟩

/-- C9 (amended): provided every feed response mentions only symbols of
the requested batch (the PriceFeed interface contract), every key of the
returned price map is one of the cycle's symbols. -/
theorem claim_C9_pricemap_amended (feed : Feed)
    (hcont : ∀ b res, feed b = .ok res → ∀ t q, (t, q) ∈ res → t ∈ b) :
    ∀ (symbols : List String) (size : Int) (pm : PriceMap),
      fetchLatestPrices symbols feed size = .ok pm →
      ∀ s, pm s ≠ none → s ∈ symbols := by
  intro symbols size pm h s hs
  unfold fetchLatestPrices at h
  by_cases hemp : symbols = []
  · rw [if_pos hemp] at h
    injection h with h'
    subst h'
    exact absurd rfl hs
  · rw [if_neg hemp] at h
    split at h
    · exact absurd h (by simp)
    · rename_i bs heq
      injection h with h'
      subst h'
      by_contra hsym
      apply hs
      rw [fetchLoop_not_mem bs feed emptyPM s ?_]
      · rfl
      · intro b hb res hres q hq
        have hsb : s ∈ b := hcont b res hres s q hq
        have hjoin : s ∈ bs.flatten := List.mem_flatten.2 ⟨b, hb, hsb⟩
        rcases pyChunks_ok_join _ _ _ heq with hj | rfl
        · rw [hj] at hjoin
          exact hsym ((dedupFirst_mem symbols s).1 hjoin)
        · simp at hjoin

/-- C9 witness: the amended theorem applied to the echoing feed on the
one-symbol list. -/
theorem claim_C9_witness : "AAPL" ∈ ["AAPL"] := by
  have hcont : ∀ b res, feedEcho b = .ok res → ∀ t q, (t, q) ∈ res → t ∈ b := by
    intro b res hres t q htq
    injection hres with h'
    subst h'
    rcases List.mem_map.1 htq with ⟨x, hx, hxeq⟩
    injection hxeq with h1 h2
    subst h1
    exact hx
  exact claim_C9_pricemap_amended feedEcho hcont ["AAPL"] 150
    (fetchLoop feedEcho emptyPM (chunksPos ["AAPL"] 150)) rfl "AAPL" (by decide)

/-! Helper lemmas about the sheet model. -/

/-- Reading back a list stored positionally recovers it. -/
theorem range_map_getD : ∀ (l : List String) (d : String),
    (List.range l.length).map (fun i => l.getD i d) = l := by
  intro l d
  induction l with
  | nil => rfl
  | cons a as ih =>
    rw [List.length_cons, List.range_succ_eq_map, List.map_cons, List.map_map]
    congr 1

/-- Updates that only touch Column 3 leave Column 1 unchanged. -/
theorem applyUpdates_other : ∀ (us : List CellUpdate) (s : Sheet) (r : Nat),
    (∀ u, u ∈ us → u.col = 3) → applyUpdates s us (r, 1) = s (r, 1) := by
  intro us
  induction us with
  | nil => intro s r _; rfl
  | cons u rest ih =>
    intro s r h
    have hstep : applyUpdates s (u :: rest) =
        applyUpdates (fun rc => if rc = (u.row, u.col) then u.value else s rc) rest := rfl
    rw [hstep, ih _ r (fun v hv => h v (List.mem_cons_of_mem _ hv))]
    rw [if_neg]
    intro hcol
    have h3 : u.col = 3 := h u (List.mem_cons_self _ _)
    have h1 : (1 : Nat) = u.col := congrArg Prod.snd hcol
    rw [h3] at h1
    cases h1

/-- All updates a successful cycle produces are Column-C updates. -/
theorem cycle_cols (column : List String) (feed : Feed) (size : Int) (us : List CellUpdate)
    (h : cycleUpdates column feed size = .ok us) : ∀ u, u ∈ us → u.col = 3 := by
  intro u hu
  simp only [cycleUpdates] at h
  split at h
  · injection h with h'
    subst h'
    simp at hu
  · split at h
    · exact absurd h (by simp)
    · injection h with h'
      subst h'
      rcases List.mem_map.1 hu with ⟨rs, _, rfl⟩
      rfl

/-! C8.  Idempotence / determinism. -/

/-- C8: a successful cycle's updates, applied to a sheet holding the input
column, leave Column A unchanged, so running the same cycle again over the
written sheet (same feed responses) produces the identical update list. -/
theorem claim_C8_idempotence (column : List String) (feed : Feed) (size : Int)
    (us : List CellUpdate) (h : cycleUpdates column feed size = .ok us) :
    readColOne (applyUpdates (mkSheet column) us) column.length = column ∧
    cycleUpdates (readColOne (applyUpdates (mkSheet column) us) column.length) feed size
      = .ok us := by
  have hcols := cycle_cols column feed size us h
  have hread : readColOne (applyUpdates (mkSheet column) us) column.length = column := by
    unfold readColOne
    have hcell : ∀ i : Nat,
        cellText (applyUpdates (mkSheet column) us (i + 1, 1)) = column.getD i "" := by
      intro i
      rw [applyUpdates_other us _ _ hcols]
      show cellText (mkSheet column (i + 1, 1)) = column.getD i ""
      unfold mkSheet
      rw [if_pos rfl]
      rfl
    calc (List.range column.length).map
          (fun i => cellText (applyUpdates (mkSheet column) us (i + 1, 1)))
        = (List.range column.length).map (fun i => column.getD i "") :=
          List.map_congr_left (fun i _ => hcell i)
      _ = column := range_map_getD column ""
  exact ⟨hread, by rw [hread]; exact h⟩

/-- C8 witness: the concrete scenario cycle, run twice over the written
sheet, yields the same three updates. -/
theorem claim_C8_witness :
    cycleUpdates exampleColumn feedAAPL 150 = .ok usEx ∧
    readColOne (applyUpdates (mkSheet exampleColumn) usEx) exampleColumn.length
      = exampleColumn ∧
    cycleUpdates (readColOne (applyUpdates (mkSheet exampleColumn) usEx)
      exampleColumn.length) feedAAPL 150 = .ok usEx := by
  have h : cycleUpdates exampleColumn feedAAPL 150 = .ok usEx := rfl
  exact ⟨h, (claim_C8_idempotence _ _ _ _ h).1, (claim_C8_idempotence _ _ _ _ h).2⟩
